import Mathlib

/-!
Verification development for the GBRT tree-building headers
(`src/tree/splitter.h`, `src/tree/treebuilder.h`).

The repository ships only the two headers; every function body that is
defined inline in a header (`SplitRecord`'s constructors, `rand_int`,
`rand_double`, `operator<` on the frontier record `P`,
`BestFirstTreeBuilder::_add_to_frontier`) is embedded here directly from
its source text.  Methods that are merely declared in the headers
(`Splitter::node_split` and its subclass overrides, `SplitRecord::init_split`)
have no body in the repository; where a claim depends on them, the relevant
behaviour is modelled from the specification and marked as such in the
definition's doc comment.

Conventions of the shallow embedding:
* C++ `double` values are modelled as exact rationals (`ℚ`); none of the
  properties below depends on rounding.
* C++ `int` is modelled as `ℤ` (no arithmetic here approaches 2^31).
* `std::vector<int>` becomes `List ℕ` (sample indices are non-negative).
* the C global RNG state (`next` in the ISO C reference implementation of
  `rand`/`srand`) is threaded explicitly as a `ℕ` argument and result.
-/

/-! ### SplitRecord (`src/tree/splitter.h`, lines 19-52) -/

/-- Embeds `struct SplitRecord`: feature index, threshold, partition
position `pos`, impurity improvement and the two child impurities. -/
structure SplitRecord where
  feature : ℤ
  threshold : ℚ
  pos : ℤ
  improvement : ℚ
  impurity_left : ℚ
  impurity_right : ℚ
deriving DecidableEq

/-- Embeds the default constructor `SplitRecord()` (lines 32-41): every
field is initialised to zero. -/
def SplitRecord_default : SplitRecord :=
  { feature := 0, threshold := 0, pos := 0,
    improvement := 0, impurity_left := 0, impurity_right := 0 }

/-- Embeds the copy constructor `SplitRecord(const SplitRecord& r)`
(lines 43-51).  The body assigns `feature = r.feature`, `pos = r.pos`,
`threshold = r.threshold`, `improvement = r.improvement`, but then
`impurity_left = impurity_left` and `impurity_right = impurity_right`:
both are self-assignments, so those two members keep whatever
indeterminate values they held before the assignment.  The indeterminate
initial contents of the two members are passed in explicitly as
`mem_left` and `mem_right`. -/
def SplitRecord_copy (r : SplitRecord) (mem_left mem_right : ℚ) : SplitRecord :=
  { feature := r.feature, pos := r.pos, threshold := r.threshold,
    improvement := r.improvement,
    impurity_left := mem_left, impurity_right := mem_right }

/-- Modelled from the spec: `SplitRecord::init_split(int start_pos)` is
declared at line 30 of `src/tree/splitter.h` but its body is not in the
repository.  The spec describes the default/uninitialised state it
establishes: `pos = start` (no samples moved) and
improvement/impurities = 0. -/
def init_split (r : SplitRecord) (start_pos : ℤ) : SplitRecord :=
  { r with pos := start_pos, improvement := 0,
           impurity_left := 0, impurity_right := 0 }

/-! ### RNG helpers (`src/tree/splitter.h`, lines 299-311)

`rand_int` and `rand_double` both call `std::srand(random_state)` and then
`std::rand()`.  The C library generator is external to the repository; it
is modelled by the ISO C sample implementation of `rand`/`srand`
(`next = next * 1103515245 + 12345; return (next/65536) % 32768`) with
`RAND_MAX = 32767`, the C global variable `next` being passed explicitly. -/

/-- Conversion of a C `int` seed to the `unsigned` consumed by `srand`
(reduction modulo 2^32). -/
def uintOfInt (z : ℤ) : ℕ := (z % (2 ^ 32 : ℤ)).toNat

/-- One step of the ISO C reference generator: the update of the global
`unsigned long` variable `next` performed by `rand()`. -/
def c_rand_step (next : ℕ) : ℕ := (next * 1103515245 + 12345) % 2 ^ 64

/-- Output extraction of the ISO C reference `rand()`:
`(next / 65536) % 32768`. -/
def c_rand_out (next : ℕ) : ℕ := next / 65536 % 32768

/-- The `RAND_MAX` of the reference generator. -/
def RAND_MAX_C : ℕ := 32767

/-- Conversion of a C++ `double` (modelled exactly as `ℚ`) to `int`:
truncation toward zero. -/
def c_double_to_int (q : ℚ) : ℤ := if 0 ≤ q then ⌊q⌋ else ⌈q⌉

/-- Embeds `rand_int(low, high, random_state)` (lines 299-304).  The body
reseeds the global generator with `random_state`, draws one value, and
returns `low + random_variable % (high - low)` (C `%` truncates toward
zero).  `g` is the global RNG state on entry; the pair returned is
(function result, global RNG state on exit). -/
def rand_int (low high random_state : ℤ) (g : ℕ) : ℤ × ℕ :=
  let next := c_rand_step (uintOfInt random_state)
  let random_variable : ℤ := (c_rand_out next : ℤ)
  (low + Int.tmod random_variable (high - low), next)

/-- Embeds `rand_double(low, high, random_state)` (lines 306-311).  The
body reseeds, draws one value, computes
`((high - low) * (double)random_variable) / RAND_MAX + low` in `double`
arithmetic (exact here: all quantities are small integers and one exact
division), and — the declared return type being `int` — truncates the
result toward zero.  `g` is the global RNG state on entry. -/
def rand_double (low high random_state : ℤ) (g : ℕ) : ℤ × ℕ :=
  let next := c_rand_step (uintOfInt random_state)
  let random_variable : ℚ := (c_rand_out next : ℚ)
  (c_double_to_int ((((high : ℚ) - (low : ℚ)) * random_variable) / (RAND_MAX_C : ℚ) + (low : ℚ)), next)

/-! ### Frontier records (`src/tree/treebuilder.h`, lines 43-82, 213-225) -/

/-- Embeds `struct P`, the best-first frontier record. -/
structure P where
  _node_id : ℤ
  _start : ℤ
  _end : ℤ
  _pos : ℤ
  _depth : ℤ
  _is_leaf : Bool
  _impurity : ℚ
  _impurity_left : ℚ
  _impurity_right : ℚ
  _improvement : ℚ
deriving DecidableEq

/-- Embeds `operator<(const P& p1, const P& p2)` (lines 79-82):
`p1._improvement < p2._improvement`, comparing nothing else. -/
def P_lt (p1 p2 : P) : Prop := p1._improvement < p2._improvement

instance (p1 p2 : P) : Decidable (P_lt p1 p2) := by
  unfold P_lt; infer_instance

/-- Contents of a `std::priority_queue<P>` after `push(p)`, the queue being
modelled by its contents list (heap layout abstracted away). -/
def pq_push (pq : List P) (p : P) : List P := p :: pq

/-- The element `top()` would return from a non-empty max-priority queue
with comparator `operator<`: an element that is not `operator<`-below any
other element of the queue (`h` is one element, `l` the rest). -/
def frontierTop (h : P) (l : List P) : P :=
  l.foldl (fun best q => if P_lt best q then q else best) h

/-- Embeds the inline body of `BestFirstTreeBuilder::_add_to_frontier`
(lines 213-225).  The parameter is declared `priority_queue<P> pq` — by
value — so the callee receives a copy of the caller's queue, pushes a
field-by-field copy of `p` into that copy, and returns void.  The result
pair is (the caller's queue after the call, the callee's local copy at the
moment of return): call-by-value means the caller's queue is returned
unchanged. -/
def _add_to_frontier (p : P) (pq : List P) : List P × List P :=
  (pq,
   pq_push pq
     { _node_id := p._node_id, _start := p._start, _end := p._end,
       _pos := p._pos, _depth := p._depth, _is_leaf := p._is_leaf,
       _impurity := p._impurity, _impurity_left := p._impurity_left,
       _impurity_right := p._impurity_right, _improvement := p._improvement })

/-! ### The partition-in-place step of `node_split`

The headers declare `Splitter::node_split` (pure virtual, lines 95-97) and
its overrides but contain no body; the comment block at lines 139-155 and
the spec describe its effect on the sample permutation: `node_split`
reorganizes the node samples `samples[start:end)` in place into two
subsets `samples[start:pos)` and `samples[pos:end)`.  The rearrangement is
modelled from the spec as the classic two-pointer swap loop over the
chosen feature's values. -/

/-- In-place exchange of `l[i]` and `l[j]` (the effect of
`std::swap(samples[i], samples[j])` on the vector). -/
def swapList (l : List ℕ) (i j : ℕ) : List ℕ :=
  (l.set i (l.getD j 0)).set j (l.getD i 0)

/-- The sub-range `l[a:b)` of a sample permutation. -/
def rangeList (l : List ℕ) (a b : ℕ) : List ℕ :=
  (l.drop a).take (b - a)

/-- Modelled from the spec: the partition loop inside `node_split` (no
body under `src/`).  Samples whose feature value is at most the threshold
are kept on the left; others are swapped to the back of the shrinking
window `[p, pe)`.  Returns the rearranged permutation together with the
final boundary, which becomes the split position `pos`. -/
def partLoop (xv : ℕ → ℚ) (t : ℚ) (s : List ℕ) (p pe : ℕ) : List ℕ × ℕ :=
  if h : p < pe then
    if xv (s.getD p 0) ≤ t then
      partLoop xv t s (p + 1) pe
    else
      partLoop xv t (swapList s p (pe - 1)) p (pe - 1)
  else
    (s, p)
termination_by pe - p
decreasing_by
  · omega
  · omega

/-- Modelled from the spec: the effect of `node_split` on the sample
permutation — partition `samples[start:end)` in place at the chosen
threshold `t` of the chosen feature (values `xv`), returning the
rearranged permutation and the split position `pos`. -/
def node_split_partition (xv : ℕ → ℚ) (t : ℚ) (samples : List ℕ)
    (start end_ : ℕ) : List ℕ × ℕ :=
  partLoop xv t samples start end_

/-! ### Per-swap lemmas for the partition loop -/

/-- Moving the `j`-th element of a list to the front while writing `x` in
its place is a permutation of putting `x` in front. -/
theorem cons_getD_set_perm : ∀ (t : List ℕ) (j : ℕ) (x : ℕ), j < t.length →
    List.Perm (t.getD j 0 :: t.set j x) (x :: t)
  | [], j, x, h => absurd h (by simp)
  | a :: t', 0, x, _ => by
      simpa using List.Perm.swap x a t'
  | a :: t', j + 1, x, h => by
      have hj : j < t'.length := by simpa using h
      have h1 : List.Perm (t'.getD j 0 :: a :: t'.set j x)
          (a :: t'.getD j 0 :: t'.set j x) := List.Perm.swap a (t'.getD j 0) _
      have h2 : List.Perm (a :: t'.getD j 0 :: t'.set j x) (a :: x :: t') :=
        List.Perm.cons a (cons_getD_set_perm t' j x hj)
      have h3 : List.Perm (a :: x :: t') (x :: a :: t') := List.Perm.swap x a t'
      simpa using (h1.trans h2).trans h3

/-- Exchanging two in-bounds entries permutes the list. -/
theorem swapList_perm : ∀ (l : List ℕ) (i j : ℕ), i < l.length → j < l.length →
    List.Perm (swapList l i j) l
  | [], i, _, hi, _ => absurd hi (by simp)
  | a :: t, 0, 0, _, _ => by
      simp [swapList]
  | a :: t, 0, m + 1, _, hj => by
      have hm : m < t.length := by simpa using hj
      simpa [swapList] using cons_getD_set_perm t m a hm
  | a :: t, n + 1, 0, hi, _ => by
      have hn : n < t.length := by simpa using hi
      simpa [swapList] using cons_getD_set_perm t n a hn
  | a :: t, n + 1, m + 1, hi, hj => by
      have ih := swapList_perm t n m (by simpa using hi) (by simpa using hj)
      simpa [swapList] using List.Perm.cons a ih

/-- A swap does not change the length. -/
theorem swapList_length (l : List ℕ) (i j : ℕ) :
    (swapList l i j).length = l.length := by
  simp [swapList]

/-- Writing at an index different from `k` leaves the entry at `k` alone. -/
theorem getD_set_ne (l : List ℕ) (i k : ℕ) (x : ℕ) (h : i ≠ k) :
    (l.set i x).getD k 0 = l.getD k 0 := by
  rw [List.getD_eq_getElem?_getD, List.getD_eq_getElem?_getD, List.getElem?_set]
  simp [h]

/-- A swap at positions `i` and `j` leaves any other entry alone. -/
theorem swapList_getD_ne (l : List ℕ) (i j k : ℕ) (hik : i ≠ k) (hjk : j ≠ k) :
    (swapList l i j).getD k 0 = l.getD k 0 := by
  unfold swapList
  rw [getD_set_ne _ _ _ _ hjk, getD_set_ne _ _ _ _ hik]

/-- Length of the extracted sub-range. -/
theorem rangeList_length (l : List ℕ) (a b : ℕ) (hbl : b ≤ l.length) :
    (rangeList l a b).length = b - a := by
  unfold rangeList
  rw [List.length_take, List.length_drop]
  omega

/-- Writing inside `[a, b)` commutes with extracting the sub-range. -/
theorem rangeList_set (l : List ℕ) (x : ℕ) (a b i : ℕ) (hai : a ≤ i) :
    rangeList (l.set i x) a b = (rangeList l a b).set (i - a) x := by
  unfold rangeList
  rw [List.drop_set, if_neg (by omega), List.set_take]

/-- Reading inside `[a, b)` through the extracted sub-range. -/
theorem rangeList_getD (l : List ℕ) (a b i : ℕ) (hai : a ≤ i) (hib : i < b)
    (hbl : b ≤ l.length) :
    (rangeList l a b).getD (i - a) 0 = l.getD i 0 := by
  unfold rangeList
  rw [List.getD_eq_getElem?_getD, List.getD_eq_getElem?_getD,
    List.getElem?_take, List.getElem?_drop]
  have h1 : i - a < b - a := by omega
  have h2 : a + (i - a) = i := by omega
  rw [if_pos h1, h2]

/-- A swap inside `[a, b)` permutes the extracted sub-range. -/
theorem rangeList_swapList_perm (l : List ℕ) (i j a b : ℕ)
    (hai : a ≤ i) (hib : i < b) (haj : a ≤ j) (hjb : j < b)
    (hbl : b ≤ l.length) :
    List.Perm (rangeList (swapList l i j) a b) (rangeList l a b) := by
  have key : rangeList (swapList l i j) a b
      = swapList (rangeList l a b) (i - a) (j - a) := by
    unfold swapList
    rw [rangeList_set _ _ _ _ _ haj, rangeList_set _ _ _ _ _ hai,
      rangeList_getD l a b j haj hjb hbl, rangeList_getD l a b i hai hib hbl]
  rw [key]
  exact swapList_perm (rangeList l a b) (i - a) (j - a)
    (by rw [rangeList_length l a b hbl]; omega)
    (by rw [rangeList_length l a b hbl]; omega)

/-- Loop invariant of the partition loop: the permutation keeps its
length, the final boundary lies in `[p, pe]`, the sub-range `[a, b)`
enclosing the working window is only permuted, and entries outside
`[a, b)` are untouched. -/
theorem partLoop_spec (xv : ℕ → ℚ) (t : ℚ) (a b : ℕ) (s : List ℕ) (p pe : ℕ)
    (hap : a ≤ p) (hppe : p ≤ pe) (hpeb : pe ≤ b) (hbs : b ≤ s.length) :
    (partLoop xv t s p pe).1.length = s.length ∧
    p ≤ (partLoop xv t s p pe).2 ∧ (partLoop xv t s p pe).2 ≤ pe ∧
    List.Perm (rangeList (partLoop xv t s p pe).1 a b) (rangeList s a b) ∧
    (∀ k, k < a ∨ b ≤ k → (partLoop xv t s p pe).1.getD k 0 = s.getD k 0) := by
  rw [partLoop]
  split
  · rename_i h
    split
    · have ih := partLoop_spec xv t a b s (p + 1) pe (by omega) (by omega)
        hpeb hbs
      exact ⟨ih.1, Nat.le_of_succ_le ih.2.1, ih.2.2.1, ih.2.2.2.1, ih.2.2.2.2⟩
    · have hsw : (swapList s p (pe - 1)).length = s.length :=
        swapList_length s p (pe - 1)
      have ih := partLoop_spec xv t a b (swapList s p (pe - 1)) p (pe - 1)
        hap (by omega) (by omega) (by omega)
      have hperm : List.Perm (rangeList (swapList s p (pe - 1)) a b)
          (rangeList s a b) :=
        rangeList_swapList_perm s p (pe - 1) a b hap (by omega) (by omega)
          (by omega) hbs
      refine ⟨ih.1.trans hsw, ih.2.1, by omega, ih.2.2.2.1.trans hperm, ?_⟩
      intro k hk
      rw [ih.2.2.2.2 k hk]
      exact swapList_getD_ne s p (pe - 1) k (by omega) (by omega)
  · exact ⟨rfl, le_refl p, hppe, List.Perm.refl _, fun k _ => rfl⟩
termination_by pe - p

/-- A sub-range splits as the concatenation of its two halves at any
interior position. -/
theorem rangeList_append (l : List ℕ) (a c b : ℕ) (hac : a ≤ c) (hcb : c ≤ b) :
    rangeList l a b = rangeList l a c ++ rangeList l c b := by
  unfold rangeList
  have hb : b - a = (c - a) + (b - c) := by omega
  rw [hb, List.take_add]
  have hdrop : List.drop (c - a) (List.drop a l) = List.drop c l := by
    rw [List.drop_drop]
    congr 1
    omega
  rw [hdrop]

/-! ### The candidate-selection step of `node_split`

Modelled from the spec: the bodies of `BestSplitter::node_split` and
`RandomSplitter::node_split` are declared (lines 208-210 and 237-239) but
not under `src/`.  Per the spec, both variants enumerate candidate split
positions, accept a candidate only if the left and right partitions each
hold at least `min_samples_leaf` samples and at least `min_weight_leaf`
total weight, keep the accepted candidate with the maximum positive
improvement, and fall back to `pos = end` (leaf decision) when no
improving accepted candidate exists. -/

/-- A candidate boundary: the split position together with the impurity
improvement the Criterion reports for it. -/
structure SplitCand where
  pos : ℕ
  improvement : ℚ

/-- Total weight of the left partition `samples[a:pos)`. -/
def leftWeight (w : ℕ → ℚ) (samples : List ℕ) (a pos : ℕ) : ℚ :=
  ((rangeList samples a pos).map w).sum

/-- Total weight of the right partition `samples[pos:b)`. -/
def rightWeight (w : ℕ → ℚ) (samples : List ℕ) (pos b : ℕ) : ℚ :=
  ((rangeList samples pos b).map w).sum

/-- Modelled from the spec: the split-acceptance test shared by
`BestSplitter::node_split` and `RandomSplitter::node_split` — the left
and right partitions must each hold at least `min_samples_leaf` samples
and carry at least `min_weight_leaf` total weight. -/
def acceptSplit (min_samples_leaf : ℕ) (min_weight_leaf : ℚ) (w : ℕ → ℚ)
    (samples : List ℕ) (a b pos : ℕ) : Bool :=
  decide (min_samples_leaf ≤ pos - a) &&
  decide (min_samples_leaf ≤ b - pos) &&
  decide (min_weight_leaf ≤ leftWeight w samples a pos) &&
  decide (min_weight_leaf ≤ rightWeight w samples pos b)

/-- One step of the candidate scan: replace the incumbent best candidate
when the new candidate is accepted and strictly improves on it; skip it
otherwise. -/
def splitStep (min_samples_leaf : ℕ) (min_weight_leaf : ℚ) (w : ℕ → ℚ)
    (samples : List ℕ) (a b : ℕ) (best : ℕ × ℚ) (c : SplitCand) : ℕ × ℚ :=
  if acceptSplit min_samples_leaf min_weight_leaf w samples a b c.pos
      && decide (best.2 < c.improvement) then
    (c.pos, c.improvement)
  else
    best

/-- Modelled from the spec: the candidate-selection core of `node_split`
over the node `[a, b)`.  The scan starts from the leaf fallback
`(pos, improvement) = (b, 0)` and keeps the accepted candidate with the
maximum positive improvement. -/
def node_split_search (min_samples_leaf : ℕ) (min_weight_leaf : ℚ)
    (w : ℕ → ℚ) (samples : List ℕ) (a b : ℕ) (cands : List SplitCand) :
    ℕ × ℚ :=
  cands.foldl (splitStep min_samples_leaf min_weight_leaf w samples a b) (b, 0)

/-- Invariant carried along the candidate scan: the incumbent is either
the untouched leaf fallback or an accepted in-range candidate with
positive improvement. -/
def scanInv (min_samples_leaf : ℕ) (min_weight_leaf : ℚ) (w : ℕ → ℚ)
    (samples : List ℕ) (a b : ℕ) (st : ℕ × ℚ) : Prop :=
  (st.1 = b ∧ st.2 = 0) ∨
  (a < st.1 ∧ st.1 < b ∧ 0 < st.2 ∧
    acceptSplit min_samples_leaf min_weight_leaf w samples a b st.1 = true)

/-- The candidate scan preserves `scanInv`. -/
theorem foldl_scanInv (min_samples_leaf : ℕ) (min_weight_leaf : ℚ)
    (w : ℕ → ℚ) (samples : List ℕ) (a b : ℕ) :
    ∀ (cands : List SplitCand) (st : ℕ × ℚ),
    (∀ c ∈ cands, a < c.pos ∧ c.pos < b) →
    scanInv min_samples_leaf min_weight_leaf w samples a b st →
    scanInv min_samples_leaf min_weight_leaf w samples a b
      (cands.foldl (splitStep min_samples_leaf min_weight_leaf w samples a b) st)
  | [], st, _, hst => hst
  | c :: rest, st, hmem, hst => by
      have hc := hmem c (List.mem_cons_self c rest)
      have hrest : ∀ d ∈ rest, a < d.pos ∧ d.pos < b := fun d hd =>
        hmem d (List.mem_cons_of_mem c hd)
      refine foldl_scanInv min_samples_leaf min_weight_leaf w samples a b
        rest _ hrest ?_
      unfold splitStep
      split
      · rename_i hcond
        rw [Bool.and_eq_true, decide_eq_true_eq] at hcond
        have hst2 : (0 : ℚ) ≤ st.2 := by
          rcases hst with ⟨_, h0⟩ | ⟨_, _, hpos, _⟩
          · exact le_of_eq h0.symm
          · exact le_of_lt hpos
        exact Or.inr ⟨hc.1, hc.2, lt_of_le_of_lt hst2 hcond.2, hcond.1⟩
      · exact hst

/-- Along the candidate scan, the incumbent improvement is positive at
the end exactly when it was positive at the start or some accepted
candidate in the list has positive improvement. -/
theorem foldl_pos_iff (min_samples_leaf : ℕ) (min_weight_leaf : ℚ)
    (w : ℕ → ℚ) (samples : List ℕ) (a b : ℕ) :
    ∀ (cands : List SplitCand) (st : ℕ × ℚ), 0 ≤ st.2 →
    (0 < (cands.foldl
        (splitStep min_samples_leaf min_weight_leaf w samples a b) st).2 ↔
      (0 < st.2 ∨ ∃ c ∈ cands,
        acceptSplit min_samples_leaf min_weight_leaf w samples a b c.pos = true ∧
        0 < c.improvement))
  | [], st, _ => by simp
  | c :: rest, st, hst => by
      rw [List.foldl_cons]
      have hstep : 0 ≤ (splitStep min_samples_leaf min_weight_leaf w samples
          a b st c).2 := by
        unfold splitStep
        split
        · rename_i hcond
          rw [Bool.and_eq_true, decide_eq_true_eq] at hcond
          exact le_of_lt (lt_of_le_of_lt hst hcond.2)
        · exact hst
      rw [foldl_pos_iff min_samples_leaf min_weight_leaf w samples a b rest _
        hstep]
      unfold splitStep
      constructor
      · rintro (hpos | ⟨d, hd, hacc, himp⟩)
        · by_cases hcond : (acceptSplit min_samples_leaf min_weight_leaf w
              samples a b c.pos && decide (st.2 < c.improvement)) = true
          · rw [if_pos hcond] at hpos
            rw [Bool.and_eq_true, decide_eq_true_eq] at hcond
            exact Or.inr ⟨c, List.mem_cons_self c rest, hcond.1, hpos⟩
          · rw [if_neg hcond] at hpos
            exact Or.inl hpos
        · exact Or.inr ⟨d, List.mem_cons_of_mem c hd, hacc, himp⟩
      · rintro (hpos | ⟨d, hd, hacc, himp⟩)
        · left
          split
          · rename_i hcond
            rw [Bool.and_eq_true, decide_eq_true_eq] at hcond
            exact lt_of_le_of_lt hst hcond.2
          · exact hpos
        · rcases List.mem_cons.mp hd with rfl | hd'
          · by_cases hlt : st.2 < d.improvement
            · have hcond : (acceptSplit min_samples_leaf min_weight_leaf w
                  samples a b d.pos && decide (st.2 < d.improvement)) = true := by
                rw [Bool.and_eq_true, decide_eq_true_eq]
                exact ⟨hacc, hlt⟩
              left
              rw [if_pos hcond]
              exact himp
            · have h0 : 0 < st.2 := lt_of_lt_of_le himp (not_lt.mp hlt)
              left
              split
              · rename_i hcond
                rw [Bool.and_eq_true, decide_eq_true_eq] at hcond
                exact lt_of_le_of_lt hst hcond.2
              · exact h0
          · exact Or.inr ⟨d, hd', hacc, himp⟩

/-! ### Claim theorems -/

/-- C1: refuted on the code — `_add_to_frontier` receives the
`priority_queue<P>` by value, so the push lands in the callee's local
copy and the caller's frontier is unchanged.  At a concrete frontier
record and an empty caller queue, after the call the caller's queue is
still empty and does not contain the record (which sits only in the
discarded local copy), contradicting the claim that the caller's
frontier contains `p` after the call. -/
theorem add_to_frontier_caller_queue_unchanged :
    (_add_to_frontier (⟨0, 0, 4, 2, 1, false, 1, 0, 0, 1⟩ : P) []).1 = [] ∧
    (⟨0, 0, 4, 2, 1, false, 1, 0, 0, 1⟩ : P) ∉
      (_add_to_frontier (⟨0, 0, 4, 2, 1, false, 1, 0, 0, 1⟩ : P) []).1 ∧
    (⟨0, 0, 4, 2, 1, false, 1, 0, 0, 1⟩ : P) ∈
      (_add_to_frontier (⟨0, 0, 4, 2, 1, false, 1, 0, 0, 1⟩ : P) []).2 := by
  decide

/-- C2: the partition step of `node_split` keeps the split position in
`[start, end]`, leaves the multiset of sample indices in
`samples[start:end)` unchanged, decomposes that range as the
concatenation of `samples[start:pos)` and `samples[pos:end)`, and never
changes the length of the permutation (partition in place, no
reallocation). -/
theorem node_split_partition_preserves_samples
    (xv : ℕ → ℚ) (t : ℚ) (samples : List ℕ) (start end_ : ℕ)
    (h1 : start ≤ end_) (h2 : end_ ≤ samples.length) :
    start ≤ (node_split_partition xv t samples start end_).2 ∧
    (node_split_partition xv t samples start end_).2 ≤ end_ ∧
    ((rangeList (node_split_partition xv t samples start end_).1 start end_ :
        Multiset ℕ) = (rangeList samples start end_ : Multiset ℕ)) ∧
    rangeList (node_split_partition xv t samples start end_).1 start end_
      = rangeList (node_split_partition xv t samples start end_).1 start
          (node_split_partition xv t samples start end_).2
        ++ rangeList (node_split_partition xv t samples start end_).1
          (node_split_partition xv t samples start end_).2 end_ ∧
    (node_split_partition xv t samples start end_).1.length
      = samples.length := by
  have h := partLoop_spec xv t start end_ samples start end_ (le_refl _) h1
    (le_refl _) h2
  unfold node_split_partition
  exact ⟨h.2.1, h.2.2.1, Multiset.coe_eq_coe.mpr h.2.2.2.1,
    rangeList_append _ start _ end_ h.2.1 h.2.2.1, h.1⟩

/-- C2 witness: the partition invariants evaluated on a concrete
permutation, node range and threshold. -/
theorem node_split_partition_preserves_samples_witness :
    (1 : ℕ) ≤ 3 ∧ (3 : ℕ) ≤ ([9, 3, 1, 7] : List ℕ).length ∧
    ((rangeList (node_split_partition (fun i => (i : ℚ)) 2 [9, 3, 1, 7] 1 3).1
        1 3 : Multiset ℕ) = (rangeList [9, 3, 1, 7] 1 3 : Multiset ℕ)) :=
  ⟨by decide, by decide,
    (node_split_partition_preserves_samples (fun i => (i : ℚ)) 2 [9, 3, 1, 7]
      1 3 (by decide) (by decide)).2.2.1⟩

/-- C3: every split the candidate scan accepts (split position strictly
inside the node, rather than the `pos = end` leaf fallback) has at least
`min_samples_leaf` samples and at least `min_weight_leaf` weight on each
side; violating candidates are skipped outright by `acceptSplit`. -/
theorem accepted_split_meets_leaf_bounds
    (min_samples_leaf : ℕ) (min_weight_leaf : ℚ) (w : ℕ → ℚ)
    (samples : List ℕ) (a b : ℕ) (cands : List SplitCand)
    (hc : ∀ c ∈ cands, a < c.pos ∧ c.pos < b)
    (hlt : (node_split_search min_samples_leaf min_weight_leaf w samples a b
        cands).1 < b) :
    min_samples_leaf
        ≤ (node_split_search min_samples_leaf min_weight_leaf w samples a b
            cands).1 - a ∧
    min_samples_leaf
        ≤ b - (node_split_search min_samples_leaf min_weight_leaf w samples
            a b cands).1 ∧
    min_weight_leaf ≤ leftWeight w samples a
        (node_split_search min_samples_leaf min_weight_leaf w samples a b
          cands).1 ∧
    min_weight_leaf ≤ rightWeight w samples
        (node_split_search min_samples_leaf min_weight_leaf w samples a b
          cands).1 b := by
  have hinv := foldl_scanInv min_samples_leaf min_weight_leaf w samples a b
    cands (b, 0) hc (Or.inl ⟨rfl, rfl⟩)
  unfold node_split_search at hlt ⊢
  rcases hinv with ⟨h1, _⟩ | ⟨_, _, _, hacc⟩
  · omega
  · simp only [acceptSplit, Bool.and_eq_true, decide_eq_true_eq] at hacc
    exact ⟨hacc.1.1.1, hacc.1.1.2, hacc.1.2, hacc.2⟩

/-- C3 witness: an accepted concrete split meets the size and weight
bounds. -/
theorem accepted_split_meets_leaf_bounds_witness :
    (node_split_search 1 0 (fun _ => 1) [0, 1, 2, 3] 0 4 [⟨2, 5⟩]).1 < 4 ∧
    (1 ≤ (node_split_search 1 0 (fun _ => 1) [0, 1, 2, 3] 0 4 [⟨2, 5⟩]).1 - 0 ∧
     1 ≤ 4 - (node_split_search 1 0 (fun _ => 1) [0, 1, 2, 3] 0 4 [⟨2, 5⟩]).1 ∧
     (0 : ℚ) ≤ leftWeight (fun _ => 1) [0, 1, 2, 3] 0
        (node_split_search 1 0 (fun _ => 1) [0, 1, 2, 3] 0 4 [⟨2, 5⟩]).1 ∧
     (0 : ℚ) ≤ rightWeight (fun _ => 1) [0, 1, 2, 3]
        (node_split_search 1 0 (fun _ => 1) [0, 1, 2, 3] 0 4 [⟨2, 5⟩]).1 4) :=
  ⟨by norm_num [node_split_search, splitStep, acceptSplit, leftWeight,
      rightWeight, rangeList],
    accepted_split_meets_leaf_bounds 1 0 (fun _ => 1) [0, 1, 2, 3] 0 4
      [⟨2, 5⟩] (by decide)
      (by norm_num [node_split_search, splitStep, acceptSplit, leftWeight,
        rightWeight, rangeList])⟩

/-- C4: the frontier comparator ranks the record with the strictly
higher improvement above the other — `operator<` compares
`_improvement` — so the max-priority frontier surfaces the
higher-improvement record first, whichever insertion order produced the
two-element queue. -/
theorem frontier_prefers_higher_improvement (p1 p2 : P)
    (h : p1._improvement < p2._improvement) :
    P_lt p1 p2 ∧ ¬ P_lt p2 p1 ∧
    frontierTop p1 [p2] = p2 ∧ frontierTop p2 [p1] = p2 := by
  have h21 : ¬ P_lt p2 p1 := by
    unfold P_lt
    exact not_lt.mpr h.le
  have h12 : P_lt p1 p2 := h
  refine ⟨h12, h21, ?_, ?_⟩
  · show (if P_lt p1 p2 then p2 else p1) = p2
    rw [if_pos h12]
  · show (if P_lt p2 p1 then p1 else p2) = p2
    rw [if_neg h21]

/-- C4 witness: two concrete records with improvements 0 and 1. -/
theorem frontier_prefers_higher_improvement_witness :
    (⟨0, 0, 4, 2, 1, false, 1, 0, 0, 0⟩ : P)._improvement
        < (⟨1, 0, 4, 2, 1, false, 1, 0, 0, 1⟩ : P)._improvement ∧
    (P_lt (⟨0, 0, 4, 2, 1, false, 1, 0, 0, 0⟩ : P)
        (⟨1, 0, 4, 2, 1, false, 1, 0, 0, 1⟩ : P) ∧
     ¬ P_lt (⟨1, 0, 4, 2, 1, false, 1, 0, 0, 1⟩ : P)
        (⟨0, 0, 4, 2, 1, false, 1, 0, 0, 0⟩ : P) ∧
     frontierTop (⟨0, 0, 4, 2, 1, false, 1, 0, 0, 0⟩ : P)
        [(⟨1, 0, 4, 2, 1, false, 1, 0, 0, 1⟩ : P)]
        = (⟨1, 0, 4, 2, 1, false, 1, 0, 0, 1⟩ : P) ∧
     frontierTop (⟨1, 0, 4, 2, 1, false, 1, 0, 0, 1⟩ : P)
        [(⟨0, 0, 4, 2, 1, false, 1, 0, 0, 0⟩ : P)]
        = (⟨1, 0, 4, 2, 1, false, 1, 0, 0, 1⟩ : P)) :=
  ⟨by decide,
    frontier_prefers_higher_improvement _ _ (by decide)⟩

/-- C5 counterexample: two frontier records with equal improvement and
node ids 0 and 1.  The source ordering compares only `_improvement`, so
the record with the smaller node id is not ranked above the other
(`operator<` does not hold in either direction), and a max-queue holding
both can surface the record with the larger id first (here the
fold-model of `top()` returns the id-1 record when it was inserted
first) — refuting the claimed node-id tie-break. -/
theorem equal_improvement_ignores_node_id_cex :
    (⟨0, 0, 4, 2, 1, false, 1, 0, 0, 1⟩ : P)._improvement
        = (⟨1, 0, 4, 2, 1, false, 1, 0, 0, 1⟩ : P)._improvement ∧
    (⟨0, 0, 4, 2, 1, false, 1, 0, 0, 1⟩ : P)._node_id
        < (⟨1, 0, 4, 2, 1, false, 1, 0, 0, 1⟩ : P)._node_id ∧
    ¬ P_lt (⟨1, 0, 4, 2, 1, false, 1, 0, 0, 1⟩ : P)
        (⟨0, 0, 4, 2, 1, false, 1, 0, 0, 1⟩ : P) ∧
    frontierTop (⟨1, 0, 4, 2, 1, false, 1, 0, 0, 1⟩ : P)
        [(⟨0, 0, 4, 2, 1, false, 1, 0, 0, 1⟩ : P)]
        = (⟨1, 0, 4, 2, 1, false, 1, 0, 0, 1⟩ : P) := by
  decide

/-- C5 amended: among equal-improvement frontier records the source
ordering provides no tie-break at all — `operator<` holds in neither
direction, node ids notwithstanding; the pop order among such records is
left to the heap layout. -/
theorem equal_improvement_no_tiebreak (p1 p2 : P)
    (h : p1._improvement = p2._improvement) :
    ¬ P_lt p1 p2 ∧ ¬ P_lt p2 p1 := by
  constructor
  · unfold P_lt
    rw [h]
    exact lt_irrefl _
  · unfold P_lt
    rw [h]
    exact lt_irrefl _

/-- C5 witness: the amended statement at two concrete equal-improvement
records. -/
theorem equal_improvement_no_tiebreak_witness :
    (⟨3, 0, 4, 2, 1, false, 1, 0, 0, 7⟩ : P)._improvement
        = (⟨4, 0, 4, 2, 1, false, 1, 0, 0, 7⟩ : P)._improvement ∧
    (¬ P_lt (⟨3, 0, 4, 2, 1, false, 1, 0, 0, 7⟩ : P)
        (⟨4, 0, 4, 2, 1, false, 1, 0, 0, 7⟩ : P) ∧
     ¬ P_lt (⟨4, 0, 4, 2, 1, false, 1, 0, 0, 7⟩ : P)
        (⟨3, 0, 4, 2, 1, false, 1, 0, 0, 7⟩ : P)) :=
  ⟨by decide, equal_improvement_no_tiebreak _ _ (by decide)⟩

/-- C6: the candidate scan returns a split position in `[start, end]`,
and the position reaches `end` exactly when no accepted candidate with
positive improvement exists — the leaf decision. -/
theorem node_split_pos_in_range_iff_leaf
    (min_samples_leaf : ℕ) (min_weight_leaf : ℚ) (w : ℕ → ℚ)
    (samples : List ℕ) (a b : ℕ) (cands : List SplitCand)
    (hab : a ≤ b) (hc : ∀ c ∈ cands, a < c.pos ∧ c.pos < b) :
    a ≤ (node_split_search min_samples_leaf min_weight_leaf w samples a b
        cands).1 ∧
    (node_split_search min_samples_leaf min_weight_leaf w samples a b
        cands).1 ≤ b ∧
    (b ≤ (node_split_search min_samples_leaf min_weight_leaf w samples a b
        cands).1 ↔
      ¬ ∃ c ∈ cands,
        acceptSplit min_samples_leaf min_weight_leaf w samples a b c.pos
          = true ∧ 0 < c.improvement) := by
  have hinv := foldl_scanInv min_samples_leaf min_weight_leaf w samples a b
    cands (b, 0) hc (Or.inl ⟨rfl, rfl⟩)
  have hiff := foldl_pos_iff min_samples_leaf min_weight_leaf w samples a b
    cands (b, 0) (le_refl 0)
  unfold node_split_search
  rcases hinv with ⟨h1, h2⟩ | ⟨h1, h2, h3, _⟩
  · refine ⟨h1.ge.trans' hab, h1.le, ?_⟩
    constructor
    · rintro - ⟨c, hcm, hacc, himp⟩
      have hpos := hiff.mpr (Or.inr ⟨c, hcm, hacc, himp⟩)
      rw [h2] at hpos
      exact lt_irrefl 0 hpos
    · intro _
      exact h1.symm.le
  · refine ⟨le_of_lt h1, le_of_lt h2, ?_⟩
    constructor
    · intro hb
      omega
    · intro hne
      exfalso
      rcases hiff.mp h3 with h0 | hex
      · exact absurd h0 (by norm_num)
      · exact hne hex

/-- C6 witness: the position/leaf characterisation at a concrete node and
candidate list. -/
theorem node_split_pos_in_range_iff_leaf_witness :
    (0 : ℕ) ≤ 4 ∧
    (0 ≤ (node_split_search 1 0 (fun _ => 1) [0, 1, 2, 3] 0 4 [⟨2, 5⟩]).1 ∧
     (node_split_search 1 0 (fun _ => 1) [0, 1, 2, 3] 0 4 [⟨2, 5⟩]).1 ≤ 4 ∧
     (4 ≤ (node_split_search 1 0 (fun _ => 1) [0, 1, 2, 3] 0 4 [⟨2, 5⟩]).1 ↔
       ¬ ∃ c ∈ ([⟨2, 5⟩] : List SplitCand),
         acceptSplit 1 0 (fun _ => 1) [0, 1, 2, 3] 0 4 c.pos = true ∧
         0 < c.improvement)) :=
  ⟨by decide,
    node_split_pos_in_range_iff_leaf 1 0 (fun _ => 1) [0, 1, 2, 3] 0 4
      [⟨2, 5⟩] (by decide) (by decide)⟩

/-- C7: because both RNG helpers reseed the global generator from
`random_state` before drawing, their results do not depend on the global
RNG state on entry: two calls with identical arguments return identical
values regardless of what ran in between. -/
theorem rand_reseed_deterministic (low high random_state : ℤ) (g1 g2 : ℕ)
    (h : low < high) :
    (rand_int low high random_state g1).1
        = (rand_int low high random_state g2).1 ∧
    (rand_double low high random_state g1).1
        = (rand_double low high random_state g2).1 ∧
    (rand_int low high random_state
        ((rand_int low high random_state g1).2)).1
      = (rand_int low high random_state g1).1 ∧
    (rand_double low high random_state
        ((rand_double low high random_state g1).2)).1
      = (rand_double low high random_state g1).1 := by
  refine ⟨?_, ?_, ?_, ?_⟩ <;> simp only [rand_int, rand_double]

/-- C7 witness: identical arguments, two different incoming global RNG
states. -/
theorem rand_reseed_deterministic_witness :
    (0 : ℤ) < 2 ∧
    ((rand_int 0 2 42 0).1 = (rand_int 0 2 42 999).1 ∧
     (rand_double 0 2 42 0).1 = (rand_double 0 2 42 999).1 ∧
     (rand_int 0 2 42 ((rand_int 0 2 42 0).2)).1 = (rand_int 0 2 42 0).1 ∧
     (rand_double 0 2 42 ((rand_double 0 2 42 0).2)).1
        = (rand_double 0 2 42 0).1) :=
  ⟨by decide, rand_reseed_deterministic 0 2 42 0 999 (by decide)⟩

/-- C8: refuted on the code — at seed 24884 the generator returns
`RAND_MAX` (32767), and `rand_double(0, 1, 24884)` evaluates to exactly
1 = high: `((high - low) * RAND_MAX) / RAND_MAX + low = high`, so the
drawn threshold is not strictly below the feature's maximum, against the
claimed half-open interval `[low, high)`.  (The declared `int` return
type additionally truncates every draw to an integer.) -/
theorem rand_double_reaches_high :
    c_rand_out (c_rand_step (uintOfInt 24884)) = RAND_MAX_C ∧
    (rand_double 0 1 24884 0).1 = 1 ∧
    ¬ ((rand_double 0 1 24884 0).1 < 1) := by
  have h1 : c_rand_out (c_rand_step (uintOfInt 24884)) = RAND_MAX_C := by
    decide
  have h2 : (rand_double 0 1 24884 0).1 = 1 := by
    simp only [rand_double]
    rw [h1]
    norm_num [RAND_MAX_C, c_double_to_int]
  refine ⟨h1, h2, ?_⟩
  rw [h2]
  exact lt_irrefl 1

/-- C9: a `SplitRecord` as default-constructed has `pos = 0` and zero
improvement and impurities, and after `init_split(start_pos)` it has
`pos = start_pos` with improvement, left impurity and right impurity all
zero. -/
theorem init_split_default_state (start_pos : ℤ) :
    SplitRecord_default.pos = 0 ∧
    SplitRecord_default.improvement = 0 ∧
    (init_split SplitRecord_default start_pos).pos = start_pos ∧
    (init_split SplitRecord_default start_pos).improvement = 0 ∧
    (init_split SplitRecord_default start_pos).impurity_left = 0 ∧
    (init_split SplitRecord_default start_pos).impurity_right = 0 :=
  ⟨rfl, rfl, rfl, rfl, rfl, rfl⟩

/-- C10: refuted on the code — the copy constructor self-assigns
`impurity_left` and `impurity_right` (lines 49-50), so those two fields
keep the target object's indeterminate values instead of the source's.
Copying a record with `impurity_left = 1`, `impurity_right = 2` into an
object whose members happened to hold 0 yields 0 in both fields, while
the four fields that are genuinely copied do match. -/
theorem copy_ctor_self_assign_bug :
    (SplitRecord_copy ⟨0, 0, 0, 0, 1, 2⟩ 0 0).improvement
        = (⟨0, 0, 0, 0, 1, 2⟩ : SplitRecord).improvement ∧
    (SplitRecord_copy ⟨0, 0, 0, 0, 1, 2⟩ 0 0).impurity_left
        ≠ (⟨0, 0, 0, 0, 1, 2⟩ : SplitRecord).impurity_left ∧
    (SplitRecord_copy ⟨0, 0, 0, 0, 1, 2⟩ 0 0).impurity_right
        ≠ (⟨0, 0, 0, 0, 1, 2⟩ : SplitRecord).impurity_right := by
  decide
